import Mathlib

/-
Verification of the time-driving layer of the tween library.

The embedding follows src/src/tweener.rs. Time values are modelled as
integers (the TweenTime trait instances of interest are integer tick
counts); values are an arbitrary type V. A Tween capability is a record
of the operations the drivers consume: duration, run and final_value.
Stateful Rust methods taking a mutable reference become functions from a
state to a pair of the returned value and the updated state.
-/

namespace TweenProof

/-- Completion test of the TweenTime trait contract, as the spec states it:
elapsed time meets or exceeds the duration. The trait itself is outside
src/, so this is taken from the interface description. -/
abbrev TweenTime.is_complete (elapsed duration : Int) : Prop :=
  duration ≤ elapsed

/-- A Tween capability instance: the operations required of the external
easing-curve collaborator by src/src/tweener.rs. -/
structure Tween (V : Type) where
  duration : Int
  run : Int → V
  final_value : V

/-- State of the variable-delta driver, struct Tweener of
src/src/tweener.rs: the owned tween, the elapsed time and the one-shot
completion fuse. -/
structure Tweener (V : Type) where
  tween : Tween V
  last_time : Int
  fused : Bool

/-- Tweener::new of src/src/tweener.rs. -/
def Tweener.new {V : Type} (t : Tween V) : Tweener V :=
  { tween := t, last_time := 0, fused := false }

/-- Tweener::update of src/src/tweener.rs: add the delta to last_time; if
complete, clamp last_time to the duration, set the fuse and emit the final
value; otherwise emit run at the new time. Once fused, emit nothing. -/
def Tweener.update {V : Type} (s : Tweener V) (delta : Int) :
    Option V × Tweener V :=
  if s.fused then (none, s)
  else if TweenTime.is_complete (s.last_time + delta) s.tween.duration then
    (some s.tween.final_value,
      { s with last_time := s.tween.duration, fused := true })
  else
    (some (s.tween.run (s.last_time + delta)),
      { s with last_time := s.last_time + delta })

/-- Outputs of a sequence of Tweener::update calls. -/
def Tweener.outUpdates {V : Type} (s : Tweener V) : List Int → List (Option V)
  | [] => []
  | d :: ds => (s.update d).1 :: ((s.update d).2).outUpdates ds

/-- State after a sequence of Tweener::update calls. -/
def Tweener.afterUpdates {V : Type} (s : Tweener V) : List Int → Tweener V
  | [] => s
  | d :: ds => ((s.update d).2).afterUpdates ds

/-- Outputs of n Tweener::update calls all fed the same constant delta. -/
def Tweener.outConst {V : Type} (s : Tweener V) (d : Int) (n : Nat) :
    List (Option V) :=
  s.outUpdates (List.replicate n d)

/-- State of the fixed-delta driver, struct FixedTweener of
src/src/tweener.rs: additionally stores the constant per-step delta. -/
structure FixedTweener (V : Type) where
  tween : Tween V
  last_time : Int
  delta : Int
  fused : Bool

/-- FixedTweener::new of src/src/tweener.rs. -/
def FixedTweener.new {V : Type} (t : Tween V) (delta : Int) : FixedTweener V :=
  { tween := t, last_time := 0, delta := delta, fused := false }

/-- Iterator::next for FixedTweener of src/src/tweener.rs: add the stored
delta to last_time; if complete, set the fuse and emit the final value
(last_time is not clamped here); otherwise emit run at the new time. Once
fused, emit nothing. -/
def FixedTweener.next {V : Type} (s : FixedTweener V) :
    Option V × FixedTweener V :=
  if s.fused then (none, s)
  else if TweenTime.is_complete (s.last_time + s.delta) s.tween.duration then
    (some s.tween.final_value,
      { s with last_time := s.last_time + s.delta, fused := true })
  else
    (some (s.tween.run (s.last_time + s.delta)),
      { s with last_time := s.last_time + s.delta })

/-- State after n pulls of FixedTweener::next. -/
def FixedTweener.nextN {V : Type} (s : FixedTweener V) : Nat → FixedTweener V
  | 0 => s
  | n + 1 => ((s.next).2).nextN n

/-- Outputs of n pulls of FixedTweener::next. -/
def FixedTweener.outN {V : Type} (s : FixedTweener V) : Nat → List (Option V)
  | 0 => []
  | n + 1 => (s.next).1 :: ((s.next).2).outN n

/-- FixedTweener::tween of src/src/tweener.rs, the read-only accessor of
the wrapped capability: a shared borrow of self returns the field and
cannot modify the state, modelled as returning the state unchanged. -/
def FixedTweener.tweenRef {V : Type} (s : FixedTweener V) :
    Tween V × FixedTweener V :=
  (s.tween, s)

/-- FixedTweener::current_time of src/src/tweener.rs, the read-only
accessor of the elapsed time, modelled like tweenRef. -/
def FixedTweener.current_time {V : Type} (s : FixedTweener V) :
    Int × FixedTweener V :=
  (s.last_time, s)

/-- Arguments Tweener::update passes to the run operation of the wrapped
tween on one call: run is invoked exactly on the non-complete, non-fused
branch, at the freshly advanced last_time. -/
def Tweener.runArgs {V : Type} (s : Tweener V) (delta : Int) : List Int :=
  if s.fused then []
  else if TweenTime.is_complete (s.last_time + delta) s.tween.duration then []
  else [s.last_time + delta]

/-- Arguments passed to run across a sequence of Tweener::update calls. -/
def Tweener.runTrace {V : Type} (s : Tweener V) : List Int → List Int
  | [] => []
  | d :: ds => s.runArgs d ++ ((s.update d).2).runTrace ds

/-- Arguments FixedTweener::next passes to run on one pull. -/
def FixedTweener.runArgsStep {V : Type} (s : FixedTweener V) : List Int :=
  if s.fused then []
  else if TweenTime.is_complete (s.last_time + s.delta) s.tween.duration then []
  else [s.last_time + s.delta]

/-- Arguments passed to run across n pulls of FixedTweener::next. -/
def FixedTweener.runTraceN {V : Type} (s : FixedTweener V) : Nat → List Int
  | 0 => []
  | n + 1 => s.runArgsStep ++ ((s.next).2).runTraceN n

/-- Modelled from the spec: the Linear easing capability is not under
src/; the spec gives linear value a to b over duration D with
tween(value_delta, percent) = value_delta * percent, percent being the
elapsed fraction. Values are rationals so the scaling is exact. -/
def Linear.new (a b : ℚ) (dur : Int) : Tween ℚ :=
  { duration := dur
    run := fun t => a + (b - a) * ((t : ℚ) / (dur : ℚ))
    final_value := b }

/-- QuartIn::tween of src/src/tweens/quart.rs: scale the value delta by
percent to the fourth power. The f64 percent is modelled as a rational
(every operation performed here at the inputs of interest is exact in
binary floating point); scale is the abstract TweenValue scaling
operation. -/
def QuartIn.tween {V : Type} (scale : V → ℚ → V) (value_delta : V)
    (percent : ℚ) : V :=
  scale value_delta (percent * percent * percent * percent)

/-- QuartOut::tween of src/src/tweens/quart.rs: shift percent down by one,
then scale by the negated fourth power minus one. -/
def QuartOut.tween {V : Type} (scale : V → ℚ → V) (value_delta : V)
    (percent : ℚ) : V :=
  scale value_delta
    (-((percent - 1) * (percent - 1) * (percent - 1) * (percent - 1) - 1))

/-- QuartInOut::tween of src/src/tweens/quart.rs: double percent, branch
at one, and scale by half the resulting scalar. -/
def QuartInOut.tween {V : Type} (scale : V → ℚ → V) (value_delta : V)
    (percent : ℚ) : V :=
  scale value_delta
    ((if percent * 2 < 1 then
        (percent * 2) * (percent * 2) * (percent * 2) * (percent * 2)
      else
        -((percent * 2 - 2) * (percent * 2 - 2) * (percent * 2 - 2) *
            (percent * 2 - 2) - 2)) / 2)

/-- The linear tween of the repository test tweener: from 0 to 100 over
duration 10. -/
def linTween : Tween ℚ :=
  Linear.new 0 100 10

/-- The fixed driver of the repository test tweener: linTween pulled with
delta 1. -/
def linDriver : FixedTweener ℚ :=
  FixedTweener.new linTween 1

/-- A concrete tween over integer values used to instantiate theorems:
duration 2, identity interpolation, final value 2. -/
def twA : Tween Int :=
  { duration := 2, run := fun t => t, final_value := 2 }

/-- A concrete zero-duration tween. -/
def tw0 : Tween Int :=
  { duration := 0, run := fun t => t, final_value := 7 }

/-- A concrete fused variable-delta driver state. -/
def sFused : Tweener Int :=
  { tween := twA, last_time := 2, fused := true }

/-- A concrete fused fixed-delta driver state. -/
def fFused : FixedTweener Int :=
  { tween := twA, last_time := 2, delta := 1, fused := true }

/-- A concrete unfused variable-delta driver state one tick from the end. -/
def sNear : Tweener Int :=
  { tween := twA, last_time := 1, fused := false }

/-- A concrete unfused fixed-delta driver state whose next pull
overshoots. -/
def fNear : FixedTweener Int :=
  { tween := twA, last_time := 1, delta := 5, fused := false }

section Lemmas

variable {V : Type}

theorem Tweener.update_fused (s : Tweener V) (d : Int) (h : s.fused = true) :
    s.update d = (none, s) := by
  simp [Tweener.update, h]

theorem Tweener.update_done (s : Tweener V) (d : Int) (h : s.fused = false)
    (hc : s.tween.duration ≤ s.last_time + d) :
    s.update d = (some s.tween.final_value,
      { s with last_time := s.tween.duration, fused := true }) := by
  simp [Tweener.update, h, TweenTime.is_complete, hc]

theorem Tweener.update_run (s : Tweener V) (d : Int) (h : s.fused = false)
    (hc : ¬ s.tween.duration ≤ s.last_time + d) :
    s.update d = (some (s.tween.run (s.last_time + d)),
      { s with last_time := s.last_time + d }) := by
  simp [Tweener.update, h, TweenTime.is_complete, hc]

theorem Tweener.update_tween (s : Tweener V) (d : Int) :
    ((s.update d).2).tween = s.tween := by
  by_cases h : s.fused = true
  · simp [Tweener.update, h]
  · simp only [Bool.not_eq_true] at h
    by_cases hc : s.tween.duration ≤ s.last_time + d
    · simp [Tweener.update_done s d h hc]
    · simp [Tweener.update_run s d h hc]

theorem FixedTweener.next_fused (s : FixedTweener V) (h : s.fused = true) :
    s.next = (none, s) := by
  simp [FixedTweener.next, h]

theorem FixedTweener.next_done (s : FixedTweener V) (h : s.fused = false)
    (hc : s.tween.duration ≤ s.last_time + s.delta) :
    s.next = (some s.tween.final_value,
      { s with last_time := s.last_time + s.delta, fused := true }) := by
  simp [FixedTweener.next, h, TweenTime.is_complete, hc]

theorem FixedTweener.next_run (s : FixedTweener V) (h : s.fused = false)
    (hc : ¬ s.tween.duration ≤ s.last_time + s.delta) :
    s.next = (some (s.tween.run (s.last_time + s.delta)),
      { s with last_time := s.last_time + s.delta }) := by
  simp [FixedTweener.next, h, TweenTime.is_complete, hc]

theorem FixedTweener.next_tween (s : FixedTweener V) :
    ((s.next).2).tween = s.tween := by
  by_cases h : s.fused = true
  · simp [FixedTweener.next_fused s h]
  · simp only [Bool.not_eq_true] at h
    by_cases hc : s.tween.duration ≤ s.last_time + s.delta
    · simp [FixedTweener.next_done s h hc]
    · simp [FixedTweener.next_run s h hc]

theorem FixedTweener.next_delta (s : FixedTweener V) :
    ((s.next).2).delta = s.delta := by
  by_cases h : s.fused = true
  · simp [FixedTweener.next_fused s h]
  · simp only [Bool.not_eq_true] at h
    by_cases hc : s.tween.duration ≤ s.last_time + s.delta
    · simp [FixedTweener.next_done s h hc]
    · simp [FixedTweener.next_run s h hc]

theorem Tweener.outUpdates_fused (s : Tweener V) (ds : List Int)
    (h : s.fused = true) :
    s.outUpdates ds = List.replicate ds.length none := by
  induction ds with
  | nil => rfl
  | cons d ds ih =>
    simp [Tweener.outUpdates, Tweener.update_fused s d h, ih,
      List.replicate_succ]

theorem Tweener.afterUpdates_fused (s : Tweener V) (ds : List Int)
    (h : s.fused = true) :
    s.afterUpdates ds = s := by
  induction ds with
  | nil => rfl
  | cons d ds ih =>
    simp [Tweener.afterUpdates, Tweener.update_fused s d h, ih]

theorem FixedTweener.outN_fused (s : FixedTweener V) (n : Nat)
    (h : s.fused = true) :
    s.outN n = List.replicate n none := by
  induction n with
  | zero => rfl
  | succ n ih =>
    simp [FixedTweener.outN, FixedTweener.next_fused s h, ih,
      List.replicate_succ]

theorem FixedTweener.nextN_fused (s : FixedTweener V) (n : Nat)
    (h : s.fused = true) :
    s.nextN n = s := by
  induction n with
  | zero => rfl
  | succ n ih =>
    simp [FixedTweener.nextN, FixedTweener.next_fused s h, ih]

theorem Tweener.afterUpdates_last_le {V : Type} :
    ∀ (ds : List Int) (s : Tweener V), s.last_time ≤ s.tween.duration →
      (s.afterUpdates ds).last_time ≤ s.tween.duration
  | [], _, h => h
  | d :: ds, s, h => by
    have hstep : ((s.update d).2).last_time ≤
        ((s.update d).2).tween.duration := by
      by_cases hf : s.fused = true
      · rw [Tweener.update_fused s d hf]; exact h
      · simp only [Bool.not_eq_true] at hf
        by_cases hc : s.tween.duration ≤ s.last_time + d
        · rw [Tweener.update_done s d hf hc]
        · rw [Tweener.update_run s d hf hc]; dsimp; omega
    have hrec := Tweener.afterUpdates_last_le ds ((s.update d).2) hstep
    rw [Tweener.update_tween] at hrec
    simpa [Tweener.afterUpdates] using hrec

theorem FixedTweener.nextN_last_bound {V : Type} :
    ∀ (n : Nat) (s : FixedTweener V), 0 ≤ s.delta →
      (s.fused = false → s.last_time ≤ s.tween.duration) →
      s.last_time ≤ s.tween.duration + s.delta →
      (s.nextN n).last_time ≤ s.tween.duration + s.delta
  | 0, _, _, _, h2 => h2
  | n + 1, s, hd, h1, h2 => by
    have hdelta := FixedTweener.next_delta s
    have htween := FixedTweener.next_tween s
    have hstep1 : ((s.next).2).fused = false →
        ((s.next).2).last_time ≤ ((s.next).2).tween.duration := by
      by_cases hf : s.fused = true
      · rw [FixedTweener.next_fused s hf]; exact h1
      · simp only [Bool.not_eq_true] at hf
        by_cases hc : s.tween.duration ≤ s.last_time + s.delta
        · rw [FixedTweener.next_done s hf hc]; intro hcontra; exact nomatch hcontra
        · rw [FixedTweener.next_run s hf hc]; intro _; dsimp; omega
    have hstep2 : ((s.next).2).last_time ≤
        ((s.next).2).tween.duration + ((s.next).2).delta := by
      rw [hdelta, htween]
      by_cases hf : s.fused = true
      · rw [FixedTweener.next_fused s hf]; exact h2
      · simp only [Bool.not_eq_true] at hf
        have hle := h1 hf
        by_cases hc : s.tween.duration ≤ s.last_time + s.delta
        · rw [FixedTweener.next_done s hf hc]; dsimp; omega
        · rw [FixedTweener.next_run s hf hc]; dsimp; omega
    have hrec := FixedTweener.nextN_last_bound n ((s.next).2)
      (by rw [hdelta]; exact hd) hstep1 hstep2
    rw [hdelta, htween] at hrec
    simpa [FixedTweener.nextN] using hrec

theorem Tweener.outConst_succ {V : Type} (s : Tweener V) (d : Int) (n : Nat) :
    s.outConst d (n + 1) =
      (s.update d).1 :: ((s.update d).2).outConst d n := by
  simp [Tweener.outConst, Tweener.outUpdates, List.replicate_succ]

theorem outConst_eq_outN {V : Type} (n : Nat) (s : Tweener V)
    (f : FixedTweener V) (h1 : s.tween = f.tween) (h2 : s.fused = f.fused)
    (h3 : f.fused = false → s.last_time = f.last_time) :
    s.outConst f.delta n = f.outN n := by
  induction n generalizing s f with
  | zero => rfl
  | succ n ih =>
    rw [Tweener.outConst_succ,
      show f.outN (n + 1) = (f.next).1 :: ((f.next).2).outN n from rfl]
    by_cases hf : f.fused = true
    · have hs : s.fused = true := h2.trans hf
      rw [Tweener.update_fused s _ hs, FixedTweener.next_fused f hf]
      exact congrArg₂ List.cons rfl (ih s f h1 h2 h3)
    · simp only [Bool.not_eq_true] at hf
      have hs : s.fused = false := h2.trans hf
      have hlt := h3 hf
      have hdur : s.tween.duration = f.tween.duration := by rw [h1]
      by_cases hc : f.tween.duration ≤ f.last_time + f.delta
      · have hcs : s.tween.duration ≤ s.last_time + f.delta := by
          rw [hdur, hlt]; exact hc
        rw [Tweener.update_done s _ hs hcs, FixedTweener.next_done f hf hc]
        show some s.tween.final_value ::
            ({ s with last_time := s.tween.duration, fused := true } :
              Tweener V).outConst f.delta n =
          some f.tween.final_value ::
            ({ f with last_time := f.last_time + f.delta, fused := true } :
              FixedTweener V).outN n
        exact congrArg₂ List.cons (by rw [h1])
          (ih { s with last_time := s.tween.duration, fused := true }
            { f with last_time := f.last_time + f.delta, fused := true }
            h1 rfl (fun hcontra => Bool.noConfusion hcontra))
      · have hcs : ¬ s.tween.duration ≤ s.last_time + f.delta := by
          rw [hdur, hlt]; exact hc
        rw [Tweener.update_run s _ hs hcs, FixedTweener.next_run f hf hc]
        show some (s.tween.run (s.last_time + f.delta)) ::
            ({ s with last_time := s.last_time + f.delta } :
              Tweener V).outConst f.delta n =
          some (f.tween.run (f.last_time + f.delta)) ::
            ({ f with last_time := f.last_time + f.delta } :
              FixedTweener V).outN n
        exact congrArg₂ List.cons (by rw [h1, hlt])
          (ih { s with last_time := s.last_time + f.delta }
            { f with last_time := f.last_time + f.delta }
            h1 h2
            (fun _ => show s.last_time + f.delta = f.last_time + f.delta by
              rw [hlt]))

theorem FixedTweener.nextN_delta_eq {V : Type} (n : Nat)
    (s : FixedTweener V) : (s.nextN n).delta = s.delta := by
  induction n generalizing s with
  | zero => rfl
  | succ n ih =>
    rw [show s.nextN (n + 1) = ((s.next).2).nextN n from rfl, ih,
      FixedTweener.next_delta]

theorem Tweener.runTrace_bounds {V : Type} :
    ∀ (ds : List Int) (s : Tweener V), (∀ d ∈ ds, 0 ≤ d) →
      (s.fused = false → 0 ≤ s.last_time) →
      ∀ x ∈ s.runTrace ds, 0 ≤ x ∧ x < s.tween.duration
  | [], _, _, _ => by
    intro x hx
    simp [Tweener.runTrace] at hx
  | d :: ds, s, hds, hlast => by
    intro x hx
    have hd0 : 0 ≤ d := hds d (by simp)
    rw [show s.runTrace (d :: ds) =
        s.runArgs d ++ ((s.update d).2).runTrace ds from rfl] at hx
    rcases List.mem_append.1 hx with hx | hx
    · by_cases hf : s.fused = true
      · simp [Tweener.runArgs, hf] at hx
      · simp only [Bool.not_eq_true] at hf
        by_cases hc : s.tween.duration ≤ s.last_time + d
        · simp [Tweener.runArgs, hf, TweenTime.is_complete, hc] at hx
        · have hx0 : x = s.last_time + d := by
            simpa [Tweener.runArgs, hf, TweenTime.is_complete, hc] using hx
          have h0 := hlast hf
          subst hx0
          omega
    · have hinv : ((s.update d).2).fused = false →
          0 ≤ ((s.update d).2).last_time := by
        by_cases hf : s.fused = true
        · rw [Tweener.update_fused s d hf]; exact hlast
        · simp only [Bool.not_eq_true] at hf
          by_cases hc : s.tween.duration ≤ s.last_time + d
          · rw [Tweener.update_done s d hf hc]
            intro hcontra
            exact Bool.noConfusion hcontra
          · rw [Tweener.update_run s d hf hc]
            intro _
            have h0 := hlast hf
            dsimp
            omega
      have hrec := Tweener.runTrace_bounds ds ((s.update d).2)
        (fun e he => hds e (List.mem_cons_of_mem d he)) hinv
      rw [Tweener.update_tween] at hrec
      exact hrec x hx

theorem FixedTweener.runTraceN_bounds {V : Type} :
    ∀ (n : Nat) (s : FixedTweener V), 0 ≤ s.delta →
      (s.fused = false → 0 ≤ s.last_time) →
      ∀ x ∈ s.runTraceN n, 0 ≤ x ∧ x < s.tween.duration
  | 0, _, _, _ => by
    intro x hx
    simp [FixedTweener.runTraceN] at hx
  | n + 1, s, hd, hlast => by
    intro x hx
    rw [show s.runTraceN (n + 1) =
        s.runArgsStep ++ ((s.next).2).runTraceN n from rfl] at hx
    rcases List.mem_append.1 hx with hx | hx
    · by_cases hf : s.fused = true
      · simp [FixedTweener.runArgsStep, hf] at hx
      · simp only [Bool.not_eq_true] at hf
        by_cases hc : s.tween.duration ≤ s.last_time + s.delta
        · simp [FixedTweener.runArgsStep, hf, TweenTime.is_complete, hc] at hx
        · have hx0 : x = s.last_time + s.delta := by
            simpa [FixedTweener.runArgsStep, hf, TweenTime.is_complete, hc]
              using hx
          have h0 := hlast hf
          subst hx0
          omega
    · have hinv : ((s.next).2).fused = false →
          0 ≤ ((s.next).2).last_time := by
        by_cases hf : s.fused = true
        · rw [FixedTweener.next_fused s hf]; exact hlast
        · simp only [Bool.not_eq_true] at hf
          by_cases hc : s.tween.duration ≤ s.last_time + s.delta
          · rw [FixedTweener.next_done s hf hc]
            intro hcontra
            exact Bool.noConfusion hcontra
          · rw [FixedTweener.next_run s hf hc]
            intro _
            have h0 := hlast hf
            dsimp
            omega
      have hrec := FixedTweener.runTraceN_bounds n ((s.next).2)
        (by rw [FixedTweener.next_delta]; exact hd) hinv
      rw [FixedTweener.next_tween] at hrec
      exact hrec x hx

theorem FixedTweener.outN_add {V : Type} :
    ∀ (a b : Nat) (f : FixedTweener V),
      f.outN (a + b) = f.outN a ++ (f.nextN a).outN b
  | 0, b, f => by simp [FixedTweener.outN, FixedTweener.nextN]
  | a + 1, b, f => by
    rw [Nat.succ_add,
      show f.outN ((a + b) + 1) = (f.next).1 :: ((f.next).2).outN (a + b)
        from rfl,
      FixedTweener.outN_add a b ((f.next).2)]
    rfl

end Lemmas

/-- Claim C1: once a completion fuse has tripped, every subsequent
Tweener::update call and every subsequent FixedTweener::next pull returns
none and leaves the driver state (tween, last_time, delta, fused)
unchanged, for any further sequence of calls. -/
theorem fuse_exhaustion_idempotent {V : Type} (s : Tweener V)
    (f : FixedTweener V) (ds : List Int) (n : Nat)
    (hs : s.fused = true) (hf : f.fused = true) :
    s.outUpdates ds = List.replicate ds.length none ∧
    s.afterUpdates ds = s ∧
    f.outN n = List.replicate n none ∧
    f.nextN n = f :=
  ⟨Tweener.outUpdates_fused s ds hs, Tweener.afterUpdates_fused s ds hs,
   FixedTweener.outN_fused f n hf, FixedTweener.nextN_fused f n hf⟩

/-- Witness for C1 at a concrete fused state. -/
theorem fuse_exhaustion_idempotent_witness :
    sFused.fused = true ∧ fFused.fused = true ∧
    sFused.outUpdates [1, 5] = [none, none] ∧
    sFused.afterUpdates [1, 5] = sFused ∧
    fFused.outN 2 = [none, none] ∧
    fFused.nextN 2 = fFused := by
  have h := fuse_exhaustion_idempotent sFused fFused [1, 5] 2 rfl rfl
  exact ⟨rfl, rfl, h.1, h.2.1, h.2.2.1, h.2.2.2⟩

/-- Claim C2: on a step where the accumulated elapsed time meets or
exceeds the duration, an unfused Tweener::update and an unfused
FixedTweener::next both return some final_value (never the run branch)
and set the fuse. -/
theorem completion_emits_final_value {V : Type} (s : Tweener V) (d : Int)
    (f : FixedTweener V)
    (hs : s.fused = false) (hsc : s.tween.duration ≤ s.last_time + d)
    (hf : f.fused = false)
    (hfc : f.tween.duration ≤ f.last_time + f.delta) :
    (s.update d).1 = some s.tween.final_value ∧
    ((s.update d).2).fused = true ∧
    (f.next).1 = some f.tween.final_value ∧
    ((f.next).2).fused = true := by
  rw [Tweener.update_done s d hs hsc, FixedTweener.next_done f hf hfc]
  exact ⟨rfl, rfl, rfl, rfl⟩

/-- Witness for C2 at a concrete state one tick from the end. -/
theorem completion_emits_final_value_witness :
    sNear.fused = false ∧ twA.duration ≤ sNear.last_time + 5 ∧
    fNear.fused = false ∧
    fNear.tween.duration ≤ fNear.last_time + fNear.delta ∧
    (sNear.update 5).1 = some twA.final_value ∧
    ((sNear.update 5).2).fused = true ∧
    (fNear.next).1 = some twA.final_value ∧
    ((fNear.next).2).fused = true := by
  have h := completion_emits_final_value sNear 5 fNear rfl (by decide) rfl
    (by decide)
  exact ⟨rfl, by decide, rfl, by decide, h.1, h.2.1, h.2.2.1, h.2.2.2⟩

/-- Claim C4: overshoot invariance. From an unfused state with elapsed
time strictly below the duration, one update whose delta reaches or
passes the duration returns some final_value, produces exactly the state
the exact remaining delta would produce, and every later update returns
none with the state unchanged. -/
theorem overshoot_invariance {V : Type} (s : Tweener V) (delta : Int)
    (h1 : s.fused = false) (h2 : s.last_time < s.tween.duration)
    (h3 : s.tween.duration ≤ s.last_time + delta) :
    (s.update delta).1 = some s.tween.final_value ∧
    s.update delta = s.update (s.tween.duration - s.last_time) ∧
    ∀ d2 : Int,
      ((s.update delta).2).update d2 = (none, (s.update delta).2) := by
  have hexact :
      s.tween.duration ≤ s.last_time + (s.tween.duration - s.last_time) := by
    omega
  have e1 := Tweener.update_done s delta h1 h3
  have e2 := Tweener.update_done s (s.tween.duration - s.last_time) h1 hexact
  refine ⟨by rw [e1], by rw [e1, e2], ?_⟩
  intro d2
  rw [e1]
  exact Tweener.update_fused _ d2 rfl

/-- Witness for C4 with a huge overshooting delta at a concrete state. -/
theorem overshoot_invariance_witness :
    sNear.fused = false ∧ sNear.last_time < twA.duration ∧
    twA.duration ≤ sNear.last_time + 100 ∧
    (sNear.update 100).1 = some twA.final_value ∧
    sNear.update 100 = sNear.update (twA.duration - sNear.last_time) ∧
    ((sNear.update 100).2).update 7 = (none, (sNear.update 100).2) := by
  have h := overshoot_invariance sNear 100 rfl (by decide) (by decide)
  exact ⟨rfl, by decide, by decide, h.1, h.2.1, h.2.2 7⟩

/-- Claim C6: a zero-duration tween is immediately complete under both
drivers: for any non-negative delta the very first Tweener::update and
the very first FixedTweener::next on fresh drivers return some
final_value and trip the fuse. -/
theorem zero_duration_immediately_complete {V : Type} (t : Tween V)
    (d e : Int) (hdur : t.duration = 0) (hd : 0 ≤ d) (he : 0 ≤ e) :
    ((Tweener.new t).update d).1 = some t.final_value ∧
    (((Tweener.new t).update d).2).fused = true ∧
    ((FixedTweener.new t e).next).1 = some t.final_value ∧
    (((FixedTweener.new t e).next).2).fused = true := by
  have h1 : (Tweener.new t).tween.duration ≤ (Tweener.new t).last_time + d := by
    show t.duration ≤ 0 + d
    omega
  have h2 : (FixedTweener.new t e).tween.duration ≤
      (FixedTweener.new t e).last_time + (FixedTweener.new t e).delta := by
    show t.duration ≤ 0 + e
    omega
  rw [Tweener.update_done _ d rfl h1, FixedTweener.next_done _ rfl h2]
  exact ⟨rfl, rfl, rfl, rfl⟩

/-- Witness for C6 at the concrete zero-duration tween. -/
theorem zero_duration_immediately_complete_witness :
    tw0.duration = 0 ∧ (0 : Int) ≤ 5 ∧ (0 : Int) ≤ 0 ∧
    ((Tweener.new tw0).update 5).1 = some tw0.final_value ∧
    (((Tweener.new tw0).update 5).2).fused = true ∧
    ((FixedTweener.new tw0 0).next).1 = some tw0.final_value ∧
    (((FixedTweener.new tw0 0).next).2).fused = true := by
  have h := zero_duration_immediately_complete tw0 5 0 rfl (by decide)
    (by decide)
  exact ⟨rfl, by decide, by decide, h.1, h.2.1, h.2.2.1, h.2.2.2⟩

/-- Counterexample to claim C3 as stated: one pull with delta 3 on a
fresh FixedTweener over the duration-2 tween twA leaves last_time at 3,
strictly above the duration — FixedTweener::next sets the fuse without
clamping last_time, unlike Tweener::update. -/
theorem fixed_last_time_exceeds_duration_cex :
    twA.duration < (((FixedTweener.new twA 3).next).2).last_time := by
  decide

/-- Claim C3 amended: for drivers started from their constructors over a
tween of non-negative duration and advanced by any deltas, the Tweener
keeps last_time at most the duration (it clamps on completion); the
FixedTweener with non-negative fixed delta keeps last_time at most
duration + delta (the completing pull may overshoot and is never
clamped). -/
theorem last_time_bound_amended {V : Type} (t u : Tween V) (ds : List Int)
    (del : Int) (n : Nat) (hds : ∀ d ∈ ds, 0 ≤ d) (hdur : 0 ≤ t.duration)
    (hdel : 0 ≤ del) (hdur2 : 0 ≤ u.duration) :
    ((Tweener.new t).afterUpdates ds).last_time ≤ t.duration ∧
    ((FixedTweener.new u del).nextN n).last_time ≤ u.duration + del := by
  constructor
  · exact Tweener.afterUpdates_last_le ds (Tweener.new t) hdur
  · exact FixedTweener.nextN_last_bound n (FixedTweener.new u del) hdel
      (fun _ => hdur2) (by show (0 : Int) ≤ u.duration + del; omega)

/-- Witness for the amended C3 at concrete drivers. -/
theorem last_time_bound_amended_witness :
    (0 : Int) ≤ twA.duration ∧ (0 : Int) ≤ 3 ∧
    ((Tweener.new twA).afterUpdates [1, 1, 1]).last_time ≤ twA.duration ∧
    ((FixedTweener.new twA 3).nextN 2).last_time ≤ twA.duration + 3 := by
  have h := last_time_bound_amended twA twA [1, 1, 1] 3 2 (by decide)
    (by decide) (by decide) (by decide)
  exact ⟨by decide, by decide, h.1, h.2⟩

/-- Claim C5: for every tween and fixed delta, the output sequence of
FixedTweener::next pulls equals, element by element, the output sequence
of Tweener::update calls fed that constant delta. -/
theorem fixed_equiv_const_delta {V : Type} (t : Tween V) (d : Int)
    (n : Nat) :
    (FixedTweener.new t d).outN n = (Tweener.new t).outConst d n :=
  (outConst_eq_outN n (Tweener.new t) (FixedTweener.new t d) rfl rfl
    (fun _ => rfl)).symm

/-- Claim C9: the FixedTweener accessors tween and current_time return
the wrapped tween and the elapsed time while leaving every field of the
state unchanged, and next never changes the stored fixed delta across any
number of pulls. -/
theorem accessors_read_only {V : Type} (f : FixedTweener V) (n : Nat) :
    f.tweenRef = (f.tween, f) ∧
    f.current_time = (f.last_time, f) ∧
    (f.nextN n).delta = f.delta :=
  ⟨rfl, rfl, FixedTweener.nextN_delta_eq n f⟩

/-- Claim C7: the fixed driver over the linear tween from 0 to 100 with
duration 10 and delta 1 produces exactly 10, 20, ..., 100 over its first
ten pulls and none on every pull after that. -/
theorem linear_sequence_ten_ticks (n : Nat) :
    linDriver.outN (10 + n) =
      [some 10, some 20, some 30, some 40, some 50, some 60, some 70,
        some 80, some 90, some 100] ++ List.replicate n none := by
  rw [FixedTweener.outN_add]
  have h1 : linDriver.outN 10 =
      [some 10, some 20, some 30, some 40, some 50, some 60, some 70,
        some 80, some 90, some 100] := by
    norm_num [linDriver, linTween, Linear.new, FixedTweener.new,
      FixedTweener.outN, FixedTweener.next, TweenTime.is_complete]
  have h2 : (linDriver.nextN 10).fused = true := by
    norm_num [linDriver, linTween, Linear.new, FixedTweener.new,
      FixedTweener.nextN, FixedTweener.next, TweenTime.is_complete]
  rw [h1, FixedTweener.outN_fused _ n h2]

/-- Claim C8: across any sequence of non-negative deltas from a fresh
driver, every argument either driver ever passes to the run operation of
the wrapped tween lies in the half-open interval from 0 to the duration;
on and after the completing step run is not called at all. -/
theorem run_precondition_respected {V : Type} (t u : Tween V)
    (ds : List Int) (del : Int) (n : Nat) (hds : ∀ d ∈ ds, 0 ≤ d)
    (hdel : 0 ≤ del) :
    (∀ x ∈ (Tweener.new t).runTrace ds, 0 ≤ x ∧ x < t.duration) ∧
    (∀ x ∈ (FixedTweener.new u del).runTraceN n,
      0 ≤ x ∧ x < u.duration) := by
  constructor
  · exact Tweener.runTrace_bounds ds (Tweener.new t) hds
      (fun _ => le_refl 0)
  · exact FixedTweener.runTraceN_bounds n (FixedTweener.new u del) hdel
      (fun _ => le_refl 0)

/-- Witness for C8: the only run argument of a one-step trace at the
concrete tween lies inside the bounds. -/
theorem run_precondition_respected_witness :
    ((0 : Int) ≤ 1 ∧ (1 : Int) < twA.duration) ∧
    ((0 : Int) ≤ 1 ∧ (1 : Int) < twA.duration) := by
  have h := run_precondition_respected twA twA [1] 1 1 (by decide) (by decide)
  exact ⟨h.1 1 (by decide), h.2 1 (by decide)⟩

/-- Claim C10: each quartic easing function evaluated at percent exactly
one scales the value delta by exactly one, for any scaling operation and
value delta. -/
theorem quart_full_percent_scales_by_one {V : Type} (scale : V → ℚ → V)
    (v : V) :
    QuartIn.tween scale v 1 = scale v 1 ∧
    QuartOut.tween scale v 1 = scale v 1 ∧
    QuartInOut.tween scale v 1 = scale v 1 := by
  refine ⟨?_, ?_, ?_⟩
  · unfold QuartIn.tween
    norm_num
  · unfold QuartOut.tween
    norm_num
  · unfold QuartInOut.tween
    rw [if_neg (by norm_num)]
    norm_num

end TweenProof
